import Mathlib

/-!
Verification of the multiscale projective-coordinates pipeline
(`ProjectiveCoordinates.py` and `dreimac/ProjectiveCoordinates.py`).

The numerical code is shallowly embedded here:
* distances, diagram entries and partition-of-unity weights are modelled
  over `ℚ` (exact arithmetic in place of floating point);
* square roots and the PPCA reduction are modelled over `ℝ`;
* `np.sqrt` applied to a negative number and division by a zero column
  sum yield NaN in the code; NaN-producing operations are modelled as
  `Option`-valued functions returning `none`;
* the eigendecomposition `numpy.linalg.eigh` is an external oracle and is
  modelled as a function parameter.

Matrices are lists of rows (`List (List ℚ)` / `List (List ℝ)`), matching
the numpy row-major layout.
-/

namespace ProjectiveCoords

/-! ### Basic list min/max helpers (models of `np.min` / `np.max` on 1-d arrays) -/

/-- Minimum of a list, as `np.min` on a nonempty 1-d array; `0` on `[]`. -/
def listMin {α : Type} [LinearOrder α] [Zero α] : List α → α
  | [] => 0
  | x :: xs => xs.foldl min x

/-- Maximum of a list, as `np.max` on a nonempty 1-d array; `0` on `[]`. -/
def listMax {α : Type} [LinearOrder α] [Zero α] : List α → α
  | [] => 0
  | x :: xs => xs.foldl max x

instance {α : Type} [LinearOrder α] : Std.Antisymm (fun a b : α => a ≤ b) :=
  ⟨fun h h' => le_antisymm h h'⟩

theorem listMin_spec {α : Type} [LinearOrder α] [Zero α] (l : List α) (hl : l ≠ []) :
    listMin l ∈ l ∧ ∀ b ∈ l, listMin l ≤ b := by
  match l, hl with
  | x :: xs, _ =>
    have h : (x :: xs).min? = some (listMin (x :: xs)) := rfl
    rw [List.min?_eq_some_iff (fun a => le_refl a) (fun a b => min_choice a b)
      (fun _ _ _ => le_min_iff)] at h
    exact h

theorem listMax_spec {α : Type} [LinearOrder α] [Zero α] (l : List α) (hl : l ≠ []) :
    listMax l ∈ l ∧ ∀ b ∈ l, b ≤ listMax l := by
  match l, hl with
  | x :: xs, _ =>
    have h : (x :: xs).max? = some (listMax (x :: xs)) := rfl
    rw [List.max?_eq_some_iff (fun a => le_refl a) (fun a b => max_choice a b)
      (fun _ _ _ => max_le_iff)] at h
    exact h

theorem listMin_mem {α : Type} [LinearOrder α] [Zero α] (l : List α) (hl : l ≠ []) :
    listMin l ∈ l := (listMin_spec l hl).1

theorem listMin_le {α : Type} [LinearOrder α] [Zero α] (l : List α) (x : α) (hx : x ∈ l) :
    listMin l ≤ x := (listMin_spec l (List.ne_nil_of_mem hx)).2 x hx

theorem listMax_mem {α : Type} [LinearOrder α] [Zero α] (l : List α) (hl : l ≠ []) :
    listMax l ∈ l := (listMax_spec l hl).1

theorem le_listMax {α : Type} [LinearOrder α] [Zero α] (l : List α) (x : α) (hx : x ∈ l) :
    x ≤ listMax l := (listMax_spec l (List.ne_nil_of_mem hx)).2 x hx

/-! ### Step 3 of `ProjCoords`: cover radius selection

Embeds (from `dreimac/ProjectiveCoordinates.py`, lines 110-120):
```
cohomdeath = -np.inf
cohombirth = np.inf
for k in range(len(cocycle_idx)):
    cohomdeath = max(cohomdeath, dgm1[idx_p1[cocycle_idx[k]], 0])
    cohombirth = min(cohombirth, dgm1[idx_p1[cocycle_idx[k]], 1])
coverage = np.max(np.min(dist_land_data, 1))
r_cover = (1-perc)*max(cohomdeath, coverage) + perc*cohombirth
```
The selected classes' (birth, death) pairs are `sel`.  The accumulator is
`Option`-valued: `none` plays the role of the initial `-np.inf` / `np.inf`,
and a result that still involves an infinity (empty selection) is `none`.
-/

/-- One step of the running maximum `cohomdeath = max(cohomdeath, b)`;
`none` is the initial `-np.inf`. -/
def omax (a : Option ℚ) (x : ℚ) : Option ℚ :=
  some (match a with | none => x | some v => max v x)

/-- One step of the running minimum `cohombirth = min(cohombirth, d)`;
`none` is the initial `np.inf`. -/
def omin (a : Option ℚ) (x : ℚ) : Option ℚ :=
  some (match a with | none => x | some v => min v x)

/-- The `cohomdeath` loop: running maximum of the selected births. -/
def cohomdeath (sel : List (ℚ × ℚ)) : Option ℚ :=
  sel.foldl (fun a p => omax a p.1) none

/-- The `cohombirth` loop: running minimum of the selected deaths. -/
def cohombirth (sel : List (ℚ × ℚ)) : Option ℚ :=
  sel.foldl (fun a p => omin a p.2) none

/-- The value `coverage = np.max(np.min(dist_land_data, 1))`: the reduction is along
axis 1, i.e. for each landmark (row) the minimum over the data points, then
the maximum over landmarks.  `dist` is the L×N landmark-to-data matrix. -/
def coverage (dist : List (List ℚ)) : ℚ :=
  listMax (dist.map listMin)

/-- The radius `r_cover = (1-perc)*max(cohomdeath, coverage) + perc*cohombirth`.
`none` when the selection is empty (the Python value would be `±inf`). -/
def rCover (sel : List (ℚ × ℚ)) (dist : List (List ℚ)) (perc : ℚ) : Option ℚ :=
  match cohomdeath sel, cohombirth sel with
  | some cd, some cb => some ((1 - perc) * max cd (coverage dist) + perc * cb)
  | _, _ => none

/-- The cover radius as claim C1 words it: here `coverage` is the maximum
over data points (columns, index `< nData`) of the minimum over landmarks
(rows).  This is the claim-side definition, to be compared with `rCover`. -/
def coverageClaimed (dist : List (List ℚ)) (nData : ℕ) : ℚ :=
  listMax ((List.range nData).map (fun i => listMin (dist.map (fun row => row.getD i 0))))

/-- Claim-side cover radius: `(1-perc)*max(max birth, coverageClaimed) + perc*(min death)`. -/
def rCoverClaimed (sel : List (ℚ × ℚ)) (dist : List (List ℚ)) (nData : ℕ) (perc : ℚ) :
    Option ℚ :=
  if sel = [] then none else
    some ((1 - perc) * max (listMax (sel.map Prod.fst)) (coverageClaimed dist nData)
      + perc * listMin (sel.map Prod.snd))

theorem foldl_omax_some (sel : List (ℚ × ℚ)) (v : ℚ) :
    sel.foldl (fun a p => omax a p.1) (some v) = some ((sel.map Prod.fst).foldl max v) := by
  induction sel generalizing v with
  | nil => rfl
  | cons p t ih => simpa [omax] using ih (max v p.1)

theorem foldl_omin_some (sel : List (ℚ × ℚ)) (v : ℚ) :
    sel.foldl (fun a p => omin a p.2) (some v) = some ((sel.map Prod.snd).foldl min v) := by
  induction sel generalizing v with
  | nil => rfl
  | cons p t ih => simpa [omin] using ih (min v p.2)

theorem cohomdeath_eq_listMax (sel : List (ℚ × ℚ)) (hsel : sel ≠ []) :
    cohomdeath sel = some (listMax (sel.map Prod.fst)) := by
  match sel, hsel with
  | p :: t, _ =>
    show (t.foldl (fun a q => omax a q.1) (omax none p.1)) = _
    rw [show omax none p.1 = some p.1 from rfl, foldl_omax_some]
    rfl

theorem cohombirth_eq_listMin (sel : List (ℚ × ℚ)) (hsel : sel ≠ []) :
    cohombirth sel = some (listMin (sel.map Prod.snd)) := by
  match sel, hsel with
  | p :: t, _ =>
    show (t.foldl (fun a q => omin a q.2) (omin none p.2)) = _
    rw [show omin none p.2 = some p.2 from rfl, foldl_omin_some]
    rfl

/-- Claim C1, counterexample.  With one landmark and two data points at
distances `[0, 5]`, one selected class `(birth, death) = (1, 2)` and
`perc = 0`, the code's radius is `(1-0)*max(1, 0) + 0*2 = 1` (its
`coverage`, reduced along axis 1, is `0`), while the claimed formula with
coverage = max over data points of min over landmarks gives
`max(1, 5) = 5`.  So the claim, as stated, is false. -/
theorem claim_C1_counterexample :
    rCover [((1 : ℚ), 2)] [[0, 5]] 0 ≠ rCoverClaimed [((1 : ℚ), 2)] [[0, 5]] 2 0 := by
  have h1 : rCover [((1 : ℚ), 2)] [[0, 5]] 0 = some 1 := by
    norm_num [rCover, cohomdeath, cohombirth, omax, omin, coverage, listMax, listMin,
      min_def, max_def]
  have h2 : rCoverClaimed [((1 : ℚ), 2)] [[0, 5]] 2 0 = some 5 := by
    norm_num [rCoverClaimed, coverageClaimed, listMax, listMin, List.range_succ,
      min_def, max_def]
  rw [h1, h2]
  norm_num

/-- Claim C1 (amended): `ProjCoords` computes the cover radius as
`(1 - perc) * max(cohomology_death, coverage) + perc * cohomology_birth`,
where `cohomology_death` is the maximum birth and `cohomology_birth` the
minimum death over the selected classes, and `coverage` is the maximum over
LANDMARKS of the minimum over DATA POINTS of the landmark-to-data distance
(`np.min(dist_land_data, 1)` reduces along axis 1, the data axis), not the
maximum over data points of the minimum over landmarks as the claim says. -/
theorem claim_C1_amended (sel : List (ℚ × ℚ)) (dist : List (List ℚ)) (perc : ℚ)
    (hsel : sel ≠ []) (hdist : dist ≠ []) :
    ∃ B D,
      rCover sel dist perc = some ((1 - perc) * max B (coverage dist) + perc * D) ∧
      (B ∈ sel.map Prod.fst ∧ ∀ b ∈ sel.map Prod.fst, b ≤ B) ∧
      (D ∈ sel.map Prod.snd ∧ ∀ d ∈ sel.map Prod.snd, D ≤ d) ∧
      (coverage dist ∈ dist.map listMin ∧ ∀ c ∈ dist.map listMin, c ≤ coverage dist) := by
  refine ⟨listMax (sel.map Prod.fst), listMin (sel.map Prod.snd), ?_, ?_, ?_, ?_⟩
  · rw [rCover, cohomdeath_eq_listMax sel hsel, cohombirth_eq_listMin sel hsel]
  · exact listMax_spec _ (by simpa using hsel)
  · exact listMin_spec _ (by simpa using hsel)
  · exact listMax_spec _ (by simpa using hdist)

/-- Witness for `claim_C1_amended` at a concrete input. -/
theorem claim_C1_witness :
    ∃ B D,
      rCover [((1 : ℚ), 2)] [[0, 5]] (1/2) =
        some ((1 - 1/2) * max B (coverage [[0, 5]]) + (1/2) * D) ∧
      (B ∈ [((1 : ℚ), 2)].map Prod.fst ∧ ∀ b ∈ [((1 : ℚ), 2)].map Prod.fst, b ≤ B) ∧
      (D ∈ [((1 : ℚ), 2)].map Prod.snd ∧ ∀ d ∈ [((1 : ℚ), 2)].map Prod.snd, D ≤ d) ∧
      (coverage [[0, 5]] ∈ [[(0 : ℚ), 5]].map listMin ∧
        ∀ c ∈ [[(0 : ℚ), 5]].map listMin, c ≤ coverage [[0, 5]]) :=
  claim_C1_amended [((1 : ℚ), 2)] [[0, 5]] (1/2) (by decide) (by decide)

/-! ### Step 2 of `ProjCoords`: diagram rescaling and class selection

Embeds (from `dreimac/ProjectiveCoordinates.py`, lines 102-116 and 155):
```
dgm1 = dgms[1]
dgm1 = dgm1/2.0          # Need so that Cech is included in rips
idx_p1 = np.argsort(dgm1[:, 0] - dgm1[:, 1])
... dgm1[idx_p1[cocycle_idx[k]], 0] ... dgm1[idx_p1[cocycle_idx[k]], 1] ...
res["dgm1"] = dgm1*2
```
`dgm` is the raw dimension-1 diagram returned by the Rips oracle. -/

/-- Halve one (birth, death) pair: `dgm1/2.0` entrywise. -/
def halvePair (p : ℚ × ℚ) : ℚ × ℚ := (p.1 / 2, p.2 / 2)

/-- The halved diagram `dgm1 = dgm1/2.0`. -/
def dgmScale (dgm : List (ℚ × ℚ)) : List (ℚ × ℚ) := dgm.map halvePair

/-- The diagram placed in the returned result: `res["dgm1"] = dgm1*2`,
where `dgm1` is the halved diagram. -/
def dgmOut (dgm : List (ℚ × ℚ)) : List (ℚ × ℚ) :=
  (dgmScale dgm).map (fun p => (p.1 * 2, p.2 * 2))

/-- Insert an index into a list of indices sorted by `key` (ascending),
keeping the first-come order on ties. -/
def insertByKey (key : ℕ → ℚ) (i : ℕ) : List ℕ → List ℕ
  | [] => [i]
  | j :: t => if key i < key j then i :: j :: t else j :: insertByKey key i t

/-- Model of `np.argsort(dgm1[:, 0] - dgm1[:, 1])`: the indices of the
(halved) diagram sorted by `birth - death` ascending, i.e. by persistence
descending. -/
def argsortKeys (keys : List ℚ) : List ℕ :=
  (List.range keys.length).foldr (insertByKey (fun i => keys.getD i 0)) []

/-- The diagram-row indices selected by `idx_p1[cocycle_idx[k]]`; the sort
key is computed on the halved diagram, exactly as in the code. -/
def selIdx (dgm : List (ℚ × ℚ)) (cocycleIdx : List ℕ) : List ℕ :=
  cocycleIdx.map (fun k =>
    (argsortKeys ((dgmScale dgm).map (fun p => p.1 - p.2))).getD k 0)

/-- The selected (birth, death) pairs, read off the halved diagram. -/
def selPairs (dgm : List (ℚ × ℚ)) (cocycleIdx : List ℕ) : List (ℚ × ℚ) :=
  (selIdx dgm cocycleIdx).map (fun i => (dgmScale dgm).getD i (0, 0))

/-- Steps 2-3 of `ProjCoords` glued together: the cover radius computed by
the pipeline from the raw oracle diagram `dgm`. -/
def rCoverPipeline (dgm : List (ℚ × ℚ)) (cocycleIdx : List ℕ) (dist : List (List ℚ))
    (perc : ℚ) : Option ℚ :=
  rCover (selPairs dgm cocycleIdx) dist perc

theorem getD_dgmScale (dgm : List (ℚ × ℚ)) (i : ℕ) :
    (dgmScale dgm).getD i (0, 0) = halvePair (dgm.getD i (0, 0)) := by
  by_cases h : i < dgm.length
  · unfold dgmScale
    rw [List.getD_eq_getElem _ _ (by simpa [dgmScale] using h),
      List.getD_eq_getElem _ _ h, List.getElem_map]
  · have h' : ¬ i < (dgmScale dgm).length := by simpa [dgmScale] using h
    rw [List.getD_eq_default _ _ (le_of_not_lt h'), List.getD_eq_default _ _ (le_of_not_lt h)]
    simp [halvePair]

/-- Claim C3 (amended): in the dreimac variant — the only variant that
halves the diagram or returns a result — every birth/death value used to
compute the cover radius is the halved value of the corresponding raw
Vietoris-Rips diagram entry (the entries selected through `idx_p1` are
`halvePair` images of raw diagram rows), and the diagram placed in the
returned result (`dgm1*2`) is the raw diagram back at the original scale.
The older variant (`ProjectiveCoordinates.py`, line 218) computes its
radius from the raw, unhalved diagram (`rBirthOld`) and returns `None`,
so the original claim is false of it. -/
theorem claim_C3_theorem (dgm : List (ℚ × ℚ)) (cocycleIdx : List ℕ)
    (dist : List (List ℚ)) (perc : ℚ) :
    rCoverPipeline dgm cocycleIdx dist perc =
      rCover ((selIdx dgm cocycleIdx).map (fun i => halvePair (dgm.getD i (0, 0)))) dist perc
    ∧ dgmOut dgm = dgm := by
  constructor
  · unfold rCoverPipeline selPairs
    congr 1
    exact List.map_congr_left (fun i _ => getD_dgmScale dgm i)
  · unfold dgmOut dgmScale
    rw [List.map_map]
    have : ((fun p : ℚ × ℚ => (p.1 * 2, p.2 * 2)) ∘ halvePair) = id := by
      funext p
      simp [halvePair]
    rw [this, List.map_id]

/-! ### Steps 4-5 of `ProjCoords`: partition of unity and classifying map

Embeds (from `dreimac/ProjectiveCoordinates.py`, lines 129-149):
```
U = dist_land_data < r_cover
phi = np.zeros_like(dist_land_data)
phi[U] = r_cover - dist_land_data[U]
varphi = phi / np.sum(phi, 0)[None, :]
ball_indx = np.argmax(U, 0)
cocycle_matrix = np.ones((n_landmarks, n_landmarks))
cocycle_matrix[cocycle[:, 0], cocycle[:, 1]] = -1
cocycle_matrix[cocycle[:, 1], cocycle[:, 0]] = -1
class_map = np.sqrt(varphi.T)
for i in range(n_data):
    class_map[i, :] *= cocycle_matrix[ball_indx[i], :]
```
-/

/-- The bump `phi[j, i]`: `r_cover - d` where `d < r_cover` (inside `U`),
`0` outside. -/
def bump (r d : ℚ) : ℚ := if d < r then r - d else 0

/-- The column sum `np.sum(phi, 0)[i]`: total bump mass on data point `i`. -/
def colSumPhi (r : ℚ) (dist : List (List ℚ)) (i : ℕ) : ℚ :=
  (dist.map (fun row => bump r (row.getD i 0))).sum

/-- The partition-of-unity entry `varphi[j, i] = phi[j, i] / np.sum(phi, 0)[i]`. -/
def varphiE (r : ℚ) (dist : List (List ℚ)) (j i : ℕ) : ℚ :=
  bump r ((dist.getD j []).getD i 0) / colSumPhi r dist i

/-- Division as broadcast by numpy: dividing by a zero column sum produces
NaN (`0/0`, with only a runtime warning), modelled as `none`. -/
def npDiv (a b : ℚ) : Option ℚ := if b = 0 then none else some (a / b)

/-- The partition-of-unity entry with the NaN outcome tracked. -/
def varphiNaN (r : ℚ) (dist : List (List ℚ)) (j i : ℕ) : Option ℚ :=
  npDiv (bump r ((dist.getD j []).getD i 0)) (colSumPhi r dist i)

/-- Transition sign `cocycle_matrix[a, b]`: the matrix is all ones except
`-1` at `(a, b)` and `(b, a)` for every vertex pair of the cocycle. -/
def cocycleSign (cocycle : List (ℕ × ℕ)) (a b : ℕ) : ℝ :=
  if (a, b) ∈ cocycle ∨ (b, a) ∈ cocycle then -1 else 1

/-- The index `ball_indx = np.argmax(U, 0)`: for data point `i`, the index of the
first landmark whose ball contains it (`np.argmax` on booleans returns the
first `True`, and `0` when the column is all `False`). -/
def ballIndx (r : ℚ) (dist : List (List ℚ)) (i : ℕ) : ℕ :=
  let c := dist.map (fun row => row.getD i 0)
  let k := c.findIdx (fun d => decide (d < r))
  if k = c.length then 0 else k

/-- Entry `(i, j)` of `class_map`: `sqrt(varphi[j, i])` times the sign-row
of data point `i`'s representative covering landmark. -/
noncomputable def classMapE (r : ℚ) (dist : List (List ℚ)) (cocycle : List (ℕ × ℕ))
    (i j : ℕ) : ℝ :=
  Real.sqrt ((varphiE r dist j i : ℚ) : ℝ) * cocycleSign cocycle (ballIndx r dist i) j

theorem bump_nonneg (r d : ℚ) : 0 ≤ bump r d := by
  unfold bump
  split
  · linarith
  · exact le_refl 0

theorem sum_map_eq_range {α : Type} {M : Type} [AddCommMonoid M] (l : List α) (f : α → M)
    (d : α) :
    (l.map f).sum = ∑ j in Finset.range l.length, f (l.getD j d) := by
  induction l with
  | nil => simp
  | cons x t ih =>
    rw [List.map_cons, List.sum_cons, ih, List.length_cons, Finset.sum_range_succ']
    simp [add_comm]

theorem varphi_nonneg (r : ℚ) (dist : List (List ℚ)) (j i : ℕ)
    (hcov : 0 < colSumPhi r dist i) : 0 ≤ varphiE r dist j i :=
  div_nonneg (bump_nonneg _ _) (le_of_lt hcov)

theorem varphi_col_sum (r : ℚ) (dist : List (List ℚ)) (i : ℕ)
    (hcov : 0 < colSumPhi r dist i) :
    (∑ j in Finset.range dist.length, varphiE r dist j i) = 1 := by
  unfold varphiE
  rw [← Finset.sum_div]
  rw [show (∑ j in Finset.range dist.length, bump r ((dist.getD j []).getD i 0))
      = colSumPhi r dist i from
    (sum_map_eq_range dist (fun row => bump r (row.getD i 0)) []).symm]
  exact div_self (ne_of_gt hcov)

/-- Claim C5: whenever the column of the bump matrix over data point `i`
has a positive sum (the point is covered), the `i`-th column of `varphi`
sums to `1` over the landmarks and all its entries are non-negative. -/
theorem claim_C5_theorem (r : ℚ) (dist : List (List ℚ)) (i : ℕ)
    (hcov : 0 < colSumPhi r dist i) :
    (∑ j in Finset.range dist.length, varphiE r dist j i) = 1 ∧
    ∀ j, 0 ≤ varphiE r dist j i :=
  ⟨varphi_col_sum r dist i hcov, fun j => varphi_nonneg r dist j i hcov⟩

/-- Witness for `claim_C5_theorem`: one landmark at distance 0 from the
single data point, radius 1. -/
theorem claim_C5_witness :
    (∑ j in Finset.range [[(0 : ℚ)]].length, varphiE 1 [[(0 : ℚ)]] j 0) = 1 ∧
    ∀ j, 0 ≤ varphiE 1 [[(0 : ℚ)]] j 0 :=
  claim_C5_theorem 1 [[(0 : ℚ)]] 0 (by norm_num [colSumPhi, bump])

/-- Claim C7: the pipeline does NOT report a coverage precondition failure.
With a cover radius of 0 every bump vanishes, the column sum is 0, and the
code divides `0/0`, producing a NaN partition entry (here `none`) that
flows into the outputs; there is no error path in `ProjCoords`.  Concrete
failing input: one landmark at distance 1 from the single data point,
`r_cover = 0`. -/
theorem claim_C7_theorem : varphiNaN 0 [[(1 : ℚ)]] 0 0 = none := by
  norm_num [varphiNaN, npDiv, colSumPhi, bump]

theorem cocycleSign_sq (cocycle : List (ℕ × ℕ)) (a b : ℕ) :
    cocycleSign cocycle a b ^ 2 = 1 := by
  unfold cocycleSign
  split <;> norm_num

/-- Claim C6: whenever data point `i` is covered (positive bump column
sum), row `i` of `class_map` has unit Euclidean norm: the sum over the
landmarks of the squared entries is 1, hence the norm is 1. -/
theorem claim_C6_theorem (r : ℚ) (dist : List (List ℚ)) (cocycle : List (ℕ × ℕ)) (i : ℕ)
    (hcov : 0 < colSumPhi r dist i) :
    Real.sqrt (∑ j in Finset.range dist.length, (classMapE r dist cocycle i j) ^ 2) = 1 := by
  have hsq : ∀ j, (classMapE r dist cocycle i j) ^ 2 = ((varphiE r dist j i : ℚ) : ℝ) := by
    intro j
    unfold classMapE
    rw [mul_pow, cocycleSign_sq, mul_one, Real.sq_sqrt]
    exact_mod_cast varphi_nonneg r dist j i hcov
  have : (∑ j in Finset.range dist.length, (classMapE r dist cocycle i j) ^ 2)
      = ((∑ j in Finset.range dist.length, varphiE r dist j i : ℚ) : ℝ) := by
    rw [Finset.sum_congr rfl (fun j _ => hsq j)]
    push_cast
    rfl
  rw [this, varphi_col_sum r dist i hcov]
  norm_num

/-- Witness for `claim_C6_theorem`: one landmark at distance 0 from the
single data point, radius 1, empty cocycle. -/
theorem claim_C6_witness :
    Real.sqrt (∑ j in Finset.range [[(0 : ℚ)]].length, (classMapE 1 [[(0 : ℚ)]] [] 0 j) ^ 2) = 1 :=
  claim_C6_theorem 1 [[(0 : ℚ)]] [] 0 (by norm_num [colSumPhi, bump])

/-! ### The furthest-point samplers `getGreedyPermDM` / `getGreedyPermEuclidean`

Embeds (from `ProjectiveCoordinates.py`, lines 52-72 and 94-111):
```
perm = np.zeros(M, dtype=np.int64)
lambdas = np.zeros(M)
ds = <distance row of point 0>
for i in range(1, M):
    idx = np.argmax(ds)
    perm[i] = idx
    lambdas[i] = ds[idx]
    ds = np.minimum(ds, <distance row of point idx>)
```
The loop is verbatim identical in the Euclidean and distance-matrix
variants; only the function computing a point's distance row differs, so
the loop is embedded once, parametrized by the row function. -/

/-- Model of `np.argmax`: index of the first occurrence of the maximum (0 on `[]`). -/
def argmaxL {α : Type} [LinearOrder α] : List α → ℕ
  | [] => 0
  | [_] => 0
  | x :: y :: t =>
    let j := argmaxL (y :: t)
    if x < (y :: t).getD j x then j + 1 else 0

theorem argmaxL_lt_length {α : Type} [LinearOrder α] :
    ∀ (l : List α), l ≠ [] → argmaxL l < l.length := by
  intro l
  induction l with
  | nil => intro h; exact absurd rfl h
  | cons x t ih =>
    intro _
    cases t with
    | nil => simp [argmaxL]
    | cons y s =>
      show (if x < (y :: s).getD (argmaxL (y :: s)) x then argmaxL (y :: s) + 1 else 0)
          < (x :: y :: s).length
      have hj := ih (by simp)
      split
      · simpa using Nat.succ_lt_succ hj
      · simp

theorem getD_le_argmaxL {α : Type} [LinearOrder α] :
    ∀ (l : List α) (d : α) (i : ℕ), i < l.length →
      l.getD i d ≤ l.getD (argmaxL l) d := by
  intro l
  induction l with
  | nil => intro d i hi; simp at hi
  | cons x t ih =>
    intro d i hi
    cases t with
    | nil =>
      have h0 : i = 0 := by simpa using hi
      subst h0
      simp [argmaxL]
    | cons y s =>
      have hj : argmaxL (y :: s) < (y :: s).length := argmaxL_lt_length (y :: s) (by simp)
      have hgd : ∀ (d' : α), (y :: s).getD (argmaxL (y :: s)) d' = (y :: s).getD (argmaxL (y :: s)) x := by
        intro d'
        rw [List.getD_eq_getElem _ _ hj, List.getD_eq_getElem _ _ hj]
      show (x :: y :: s).getD i d ≤
        (x :: y :: s).getD (if x < (y :: s).getD (argmaxL (y :: s)) x then argmaxL (y :: s) + 1 else 0) d
      split
      · rename_i hlt
        rw [List.getD_cons_succ]
        cases i with
        | zero =>
          rw [List.getD_cons_zero, hgd d]
          exact le_of_lt hlt
        | succ i' =>
          rw [List.getD_cons_succ]
          exact ih d i' (by simpa using hi)
      · rename_i hge
        push_neg at hge
        rw [List.getD_cons_zero]
        cases i with
        | zero => rw [List.getD_cons_zero]
        | succ i' =>
          rw [List.getD_cons_succ]
          calc (y :: s).getD i' d ≤ (y :: s).getD (argmaxL (y :: s)) d :=
                ih d i' (by simpa using hi)
            _ = (y :: s).getD (argmaxL (y :: s)) x := hgd d
            _ ≤ x := hge

/-- One iteration of the sampler loop. -/
def greedyStep {α : Type} [LinearOrder α] [Zero α] (row : ℕ → List α)
    (st : List ℕ × List α × List α) : List ℕ × List α × List α :=
  let idx := argmaxL st.2.2
  (st.1 ++ [idx], st.2.1 ++ [st.2.2.getD idx 0], List.zipWith min st.2.2 (row idx))

/-- State after `k` loop iterations.  `perm` and `lambdas` start as
`np.zeros`, so their entry 0 is the untouched seed entry 0; `ds` starts as
the seed point's distance row. -/
def greedyIter {α : Type} [LinearOrder α] [Zero α] (row : ℕ → List α) :
    ℕ → List ℕ × List α × List α
  | 0 => ([0], [0], row 0)
  | k + 1 => greedyStep row (greedyIter row k)

/-- The sampler `getGreedyPermDM(D, M)` restricted to its `(perm, lambdas)` outputs;
the distance row of point `i` is row `i` of the matrix `D`. -/
def getGreedyPermDM (D : List (List ℚ)) (M : ℕ) : List ℕ × List ℚ :=
  if M = 0 then ([], [])
  else ((greedyIter (fun i => D.getD i []) (M - 1)).1,
        (greedyIter (fun i => D.getD i []) (M - 1)).2.1)

/-- A row of `getCSM(X[i], X)`: Euclidean distances via the squared-norm
expansion, with the `C[C < 0] = 0` clamp before the square root. -/
noncomputable def getCSMRow (X : List (List ℝ)) (x : List ℝ) : List ℝ :=
  X.map (fun y => Real.sqrt (max 0
    ((x.map (fun t => t ^ 2)).sum + (y.map (fun t => t ^ 2)).sum
      - 2 * (List.zipWith (fun a b => a * b) x y).sum)))

/-- The sampler `getGreedyPermEuclidean(X, M)` restricted to its `(perm, lambdas)`
outputs; the distance row of point `i` is computed by `getCSM`. -/
noncomputable def getGreedyPermEuclidean (X : List (List ℝ)) (M : ℕ) : List ℕ × List ℝ :=
  if M = 0 then ([], [])
  else ((greedyIter (fun i => getCSMRow X (X.getD i [])) (M - 1)).1,
        (greedyIter (fun i => getCSMRow X (X.getD i [])) (M - 1)).2.1)

theorem greedyIter_heads {α : Type} [LinearOrder α] [Zero α] (row : ℕ → List α) :
    ∀ k, ∃ t1 t2, (greedyIter row k).1 = 0 :: t1 ∧ (greedyIter row k).2.1 = 0 :: t2 := by
  intro k
  induction k with
  | zero => exact ⟨[], [], rfl, rfl⟩
  | succ k ih =>
    obtain ⟨t1, t2, h1, h2⟩ := ih
    refine ⟨t1 ++ [argmaxL (greedyIter row k).2.2],
           t2 ++ [(greedyIter row k).2.2.getD (argmaxL (greedyIter row k).2.2) 0], ?_, ?_⟩
    · show (greedyStep row (greedyIter row k)).1 = _
      rw [greedyStep, h1]
      rfl
    · show (greedyStep row (greedyIter row k)).2.1 = _
      rw [greedyStep, h2]
      rfl

/-- Claim C10: for every input and every landmark count `M ≥ 1`, both
furthest-point samplers return `perm[0] = 0` (the seed is the first data
point) and `lambdas[0] = 0` (the seed's insertion-radius entry is the
untouched `np.zeros` entry), regardless of the data. -/
theorem claim_C10_theorem (D : List (List ℚ)) (X : List (List ℝ)) (M : ℕ) (hM : 1 ≤ M) :
    (getGreedyPermDM D M).1.head? = some 0 ∧ (getGreedyPermDM D M).2.head? = some 0 ∧
    (getGreedyPermEuclidean X M).1.head? = some 0 ∧
    (getGreedyPermEuclidean X M).2.head? = some 0 := by
  have hM0 : M ≠ 0 := by omega
  obtain ⟨t1, t2, h1, h2⟩ := greedyIter_heads (fun i => D.getD i []) (M - 1)
  obtain ⟨t3, t4, h3, h4⟩ := greedyIter_heads (fun i => getCSMRow X (X.getD i [])) (M - 1)
  refine ⟨?_, ?_, ?_, ?_⟩
  · simp only [getGreedyPermDM, if_neg hM0]
    rw [h1]
    rfl
  · simp only [getGreedyPermDM, if_neg hM0]
    rw [h2]
    rfl
  · simp only [getGreedyPermEuclidean, if_neg hM0]
    rw [h3]
    rfl
  · simp only [getGreedyPermEuclidean, if_neg hM0]
    rw [h4]
    rfl

/-- Witness for `claim_C10_theorem` at a concrete input. -/
theorem claim_C10_witness :
    (getGreedyPermDM [[(0 : ℚ)]] 1).1.head? = some 0 ∧
    (getGreedyPermDM [[(0 : ℚ)]] 1).2.head? = some 0 ∧
    (getGreedyPermEuclidean [[(0 : ℝ)]] 1).1.head? = some 0 ∧
    (getGreedyPermEuclidean [[(0 : ℝ)]] 1).2.head? = some 0 :=
  claim_C10_theorem [[(0 : ℚ)]] [[(0 : ℝ)]] 1 (le_refl 1)

/-- Claim C9: requesting `M = 2` landmarks from a single data point
(`N = 1`, distance matrix `[[0]]`) does not fail: the sampler silently
returns the repeated landmark list `[0, 0]` (with insertion radii
`[0, 0]`).  There is no precondition check anywhere in either sampler, so
claim C9's required error report does not happen. -/
theorem claim_C9_theorem : getGreedyPermDM [[(0 : ℚ)]] 2 = ([0, 0], [0, 0]) := rfl

theorem listMin_append_singleton {α : Type} [LinearOrder α] [Zero α] (l : List α) (a : α)
    (hl : l ≠ []) : listMin (l ++ [a]) = min (listMin l) a := by
  match l, hl with
  | x :: xs, _ =>
    show ((xs ++ [a]).foldl min x) = min (xs.foldl min x) a
    rw [List.foldl_append]
    rfl

/-- Pointwise value of the running minimum `ds`: the minimum distance of
data point `i` to the landmark set `perm`. -/
def dsVal {α : Type} [LinearOrder α] [Zero α] (row : ℕ → List α) (perm : List ℕ)
    (i : ℕ) : α :=
  listMin (perm.map (fun p => (row p).getD i 0))

theorem dsVal_append {α : Type} [LinearOrder α] [Zero α] (row : ℕ → List α)
    (perm : List ℕ) (q i : ℕ) (h : perm ≠ []) :
    dsVal row (perm ++ [q]) i = min (dsVal row perm i) ((row q).getD i 0) := by
  unfold dsVal
  rw [List.map_append]
  exact listMin_append_singleton _ _ (by simpa using h)

theorem exists_unselected (perm : List ℕ) (N : ℕ) (_hlt : ∀ p ∈ perm, p < N)
    (hnd : perm.Nodup) (hlen : perm.length < N) : ∃ i, i < N ∧ i ∉ perm := by
  by_contra h
  push_neg at h
  have hsub : Finset.range N ⊆ perm.toFinset := fun i hi =>
    List.mem_toFinset.mpr (h i (Finset.mem_range.mp hi))
  have hcard := Finset.card_le_card hsub
  rw [Finset.card_range, List.toFinset_card_of_nodup hnd] at hcard
  omega

/-- Hypotheses making `row` the distance-row function of `N` pairwise
distinct points: every row in range has length `N`, zero diagonal entry,
positive off-diagonal entries.  Both samplers' loops run over such a
function: row `i` of the distance matrix, or the `getCSM` row of point
`i`. -/
def IsDistinctRows {α : Type} [LinearOrder α] [Zero α] (row : ℕ → List α) (N : ℕ) : Prop :=
  (∀ i, i < N → (row i).length = N) ∧
  (∀ i, i < N → (row i).getD i 0 = 0) ∧
  (∀ i j, i < N → j < N → i ≠ j → 0 < (row i).getD j 0)

/-- Hypotheses making `D` an N×N distance matrix of N pairwise distinct
points: square shape, zero diagonal, positive off-diagonal entries. -/
def IsDistinctPointsDM (D : List (List ℚ)) (N : ℕ) : Prop :=
  D.length = N ∧ (∀ r ∈ D, r.length = N) ∧
  (∀ i, i < N → (D.getD i []).getD i 0 = 0) ∧
  (∀ i j, i < N → j < N → i ≠ j → 0 < (D.getD i []).getD j 0)

theorem isDistinctRows_of_DM (D : List (List ℚ)) (N : ℕ) (hD : IsDistinctPointsDM D N) :
    IsDistinctRows (fun p => D.getD p []) N := by
  obtain ⟨hN, hrect, hdiag, hpos⟩ := hD
  refine ⟨?_, hdiag, hpos⟩
  intro i hi
  have hi' : i < D.length := by omega
  show (D.getD i []).length = N
  rw [List.getD_eq_getElem D [] hi']
  exact hrect _ (List.getElem_mem hi')

theorem row_entry_nonneg {α : Type} [LinearOrder α] [Zero α] {row : ℕ → List α} {N : ℕ}
    (hR : IsDistinctRows row N) {p i : ℕ} (hp : p < N) (hi : i < N) :
    0 ≤ (row p).getD i 0 := by
  by_cases h : p = i
  · subst h
    exact le_of_eq (hR.2.1 p hp).symm
  · exact le_of_lt (hR.2.2 p i hp hi h)

theorem dsVal_nonneg {α : Type} [LinearOrder α] [Zero α] {row : ℕ → List α} {N : ℕ}
    (hR : IsDistinctRows row N)
    (perm : List ℕ) (hperm : ∀ p ∈ perm, p < N) (hne : perm ≠ []) {i : ℕ} (hi : i < N) :
    0 ≤ dsVal row perm i := by
  have hmem := listMin_mem (perm.map (fun p => (row p).getD i 0)) (by simpa using hne)
  rw [List.mem_map] at hmem
  obtain ⟨p, hp, heq⟩ := hmem
  rw [show dsVal row perm i
    = listMin (perm.map (fun p => (row p).getD i 0)) from rfl, ← heq]
  exact row_entry_nonneg hR (hperm p hp) hi

theorem dsVal_eq_zero_of_mem {α : Type} [LinearOrder α] [Zero α] {row : ℕ → List α} {N : ℕ}
    (hR : IsDistinctRows row N)
    (perm : List ℕ) (hperm : ∀ p ∈ perm, p < N) (hne : perm ≠ []) {i : ℕ} (hi : i < N)
    (hmem : i ∈ perm) : dsVal row perm i = 0 := by
  refine le_antisymm ?_ (dsVal_nonneg hR perm hperm hne hi)
  have : (row i).getD i 0 ∈ perm.map (fun p => (row p).getD i 0) :=
    List.mem_map.mpr ⟨i, hmem, rfl⟩
  have hle := listMin_le _ _ this
  rw [hR.2.1 i hi] at hle
  exact hle

theorem dsVal_pos_of_not_mem {α : Type} [LinearOrder α] [Zero α] {row : ℕ → List α} {N : ℕ}
    (hR : IsDistinctRows row N)
    (perm : List ℕ) (hperm : ∀ p ∈ perm, p < N) (hne : perm ≠ []) {i : ℕ} (hi : i < N)
    (hmem : i ∉ perm) : 0 < dsVal row perm i := by
  have hm := listMin_mem (perm.map (fun p => (row p).getD i 0)) (by simpa using hne)
  rw [List.mem_map] at hm
  obtain ⟨p, hp, heq⟩ := hm
  rw [show dsVal row perm i
    = listMin (perm.map (fun p => (row p).getD i 0)) from rfl, ← heq]
  exact hR.2.2 p i (hperm p hp) hi (fun h => hmem (h ▸ hp))

/-- The loop invariant of the greedy sampler over the distance rows of
pairwise distinct points: after `k` iterations the landmark list has `k+1`
distinct in-range indices, `ds` is the pointwise min-distance to the
landmark set, and the recorded insertion radii (past the seed entry) form
a non-increasing chain dominating the current `ds`. -/
structure GreedyInv {α : Type} [LinearOrder α] [Zero α] (row : ℕ → List α) (N k : ℕ)
    (st : List ℕ × List α × List α) : Prop where
  perm_len : st.1.length = k + 1
  perm_lt : ∀ p ∈ st.1, p < N
  perm_nodup : st.1.Nodup
  lam_shape : ∃ tail, st.2.1 = 0 :: tail ∧ tail.length = k ∧
    List.Chain' (fun a b => b ≤ a) tail ∧
    (1 ≤ k → ∀ i, i < N → st.2.2.getD i 0 ≤ tail.getLastD 0)
  ds_len : st.2.2.length = N
  ds_val : ∀ i, i < N → st.2.2.getD i 0 = dsVal row st.1 i

theorem greedyInv {α : Type} [LinearOrder α] [Zero α] (row : ℕ → List α) (N : ℕ)
    (hR : IsDistinctRows row N) (h0 : 0 < N) :
    ∀ k, k + 1 ≤ N → GreedyInv row N k (greedyIter row k) := by
  intro k
  induction k with
  | zero =>
    intro _
    have hrow0 : (row 0).length = N := hR.1 0 h0
    show GreedyInv row N 0 ([0], [0], row 0)
    refine ⟨rfl, ?_, List.nodup_singleton 0, ⟨[], rfl, rfl, List.chain'_nil, by omega⟩,
      hrow0, ?_⟩
    · intro p hp
      have : p = 0 := by simpa using hp
      omega
    · intro i _
      rfl
  | succ k ih =>
    intro hk1
    have inv := ih (by omega)
    set st := greedyIter row k with hst
    obtain ⟨tail, hlam, htlen, hchain, hdom⟩ := inv.lam_shape
    have hdsne : st.2.2 ≠ [] := by
      intro h
      have hl := inv.ds_len
      rw [h] at hl
      simp at hl
      omega
    have hpermne : st.1 ≠ [] := by
      intro h
      have hl := inv.perm_len
      rw [h] at hl
      simp at hl
    set idx := argmaxL st.2.2 with hidxdef
    have hidx : idx < N := by
      have := argmaxL_lt_length st.2.2 hdsne
      rw [inv.ds_len] at this
      exact this
    have hrowlen : (row idx).length = N := hR.1 idx hidx
    -- the chosen index is fresh
    obtain ⟨i0, hi0N, hi0notin⟩ :=
      exists_unselected st.1 N inv.perm_lt inv.perm_nodup (by rw [inv.perm_len]; omega)
    have hds_i0 : 0 < st.2.2.getD i0 0 := by
      rw [inv.ds_val i0 hi0N]
      exact dsVal_pos_of_not_mem hR st.1 inv.perm_lt hpermne hi0N hi0notin
    have hds_idx_pos : 0 < st.2.2.getD idx 0 :=
      lt_of_lt_of_le hds_i0 (getD_le_argmaxL st.2.2 0 i0 (by rw [inv.ds_len]; exact hi0N))
    have hfresh : idx ∉ st.1 := by
      intro hmem
      have hz := dsVal_eq_zero_of_mem hR st.1 inv.perm_lt hpermne hidx hmem
      rw [← inv.ds_val idx hidx] at hz
      exact absurd hz (ne_of_gt hds_idx_pos)
    -- components of the next state
    have hc1 : (greedyStep row st).1 = st.1 ++ [idx] := rfl
    have hc2 : (greedyStep row st).2.1
        = st.2.1 ++ [st.2.2.getD idx 0] := rfl
    have hc3 : (greedyStep row st).2.2
        = List.zipWith min st.2.2 (row idx) := rfl
    have hzip_len : (List.zipWith min st.2.2 (row idx)).length = N := by
      rw [List.length_zipWith, inv.ds_len, hrowlen]
      exact min_self N
    have hzip : ∀ i, i < N → (List.zipWith min st.2.2 (row idx)).getD i 0
        = min (st.2.2.getD i 0) ((row idx).getD i 0) := by
      intro i hiN
      have h1 : i < (List.zipWith min st.2.2 (row idx)).length := by
        rw [hzip_len]
        exact hiN
      have h2 : i < st.2.2.length := by
        rw [inv.ds_len]
        exact hiN
      have h3 : i < (row idx).length := by
        rw [hrowlen]
        exact hiN
      calc (List.zipWith min st.2.2 (row idx)).getD i 0
          = (List.zipWith min st.2.2 (row idx))[i] :=
            List.getD_eq_getElem _ _ h1
        _ = min st.2.2[i] (row idx)[i] := List.getElem_zipWith
        _ = min (st.2.2.getD i 0) ((row idx).getD i 0) := by
            rw [List.getD_eq_getElem st.2.2 0 h2, List.getD_eq_getElem (row idx) 0 h3]
    show GreedyInv row N (k + 1) (greedyStep row st)
    refine ⟨?_, ?_, ?_, ?_, ?_, ?_⟩
    · rw [hc1, List.length_append, inv.perm_len]
      rfl
    · intro p hp
      rw [hc1, List.mem_append] at hp
      rcases hp with hp | hp
      · exact inv.perm_lt p hp
      · have : p = idx := by simpa using hp
        omega
    · rw [hc1, List.nodup_append]
      exact ⟨inv.perm_nodup, List.nodup_singleton idx,
        fun a ha hb => hfresh (by
          have : a = idx := by simpa using hb
          rw [← this]
          exact ha)⟩
    · refine ⟨tail ++ [st.2.2.getD idx 0], ?_, ?_, ?_, ?_⟩
      · rw [hc2, hlam]
        rfl
      · rw [List.length_append, htlen]
        rfl
      · rw [List.chain'_append]
        refine ⟨hchain, List.chain'_singleton _, ?_⟩
        intro x hx y hy
        have hy' : y = st.2.2.getD idx 0 := by
          have h := Option.mem_def.mp hy
          rw [List.head?_cons] at h
          exact (Option.some.inj h).symm
        have htne : tail ≠ [] := by
          intro h
          rw [h] at hx
          simp at hx
        have hk1' : 1 ≤ k := by
          have := htlen
          cases tail with
          | nil => exact absurd rfl htne
          | cons a t => simp at this; omega
        have hd := hdom hk1' idx hidx
        rw [List.getLastD_eq_getLast?, List.getLast?_eq_getLast tail htne] at hd
        have hx' : x = tail.getLast htne := by
          have h := Option.mem_def.mp hx
          rw [List.getLast?_eq_getLast tail htne] at h
          exact (Option.some.inj h).symm
        rw [hy', hx']
        simpa using hd
      · intro _ i hiN
        rw [hc3, hzip i hiN, List.getLastD_concat]
        calc min (st.2.2.getD i 0) ((row idx).getD i 0) ≤ st.2.2.getD i 0 :=
              min_le_left _ _
          _ ≤ st.2.2.getD idx 0 :=
              getD_le_argmaxL st.2.2 0 i (by rw [inv.ds_len]; exact hiN)
    · rw [hc3]
      exact hzip_len
    · intro i hiN
      rw [hc3, hzip i hiN, hc1, dsVal_append _ _ _ _ hpermne, inv.ds_val i hiN]

/-- The sampler guarantee shared by both variants, over the abstract row
function: `L` distinct indices and non-increasing recorded insertion
radii. -/
theorem greedyPerm_distinct_mono {α : Type} [LinearOrder α] [Zero α] (row : ℕ → List α)
    (N L : ℕ) (hR : IsDistinctRows row N) (h0 : 0 < N) (hL : 1 ≤ L) (hLN : L ≤ N) :
    (greedyIter row (L - 1)).1.length = L ∧ (greedyIter row (L - 1)).1.Nodup ∧
    List.Chain' (fun a b => b ≤ a) ((greedyIter row (L - 1)).2.1.drop 1) := by
  have inv := greedyInv row N hR h0 (L - 1) (by omega)
  obtain ⟨tail, hlam, htlen, hchain, -⟩ := inv.lam_shape
  refine ⟨by rw [inv.perm_len]; omega, inv.perm_nodup, ?_⟩
  rw [hlam]
  simpa using hchain

/-- Claim C4, counterexample.  Two coincident points (the all-zero 2×2
distance matrix, a valid distance matrix / point set) with `L = N = 2`:
`np.argmax` of the all-zero `ds` returns 0, which is already the seed
landmark, so the sampler returns `perm = [0, 0]` — NOT distinct indices. -/
theorem claim_C4_counterexample :
    ¬ (getGreedyPermDM [[(0 : ℚ), 0], [0, 0]] 2).1.Nodup := by
  have h : (getGreedyPermDM [[(0 : ℚ), 0], [0, 0]] 2).1 = [0, 0] := rfl
  rw [h]
  simp

/-! ### PPCA (Principal Projective Component Analysis, dreimac variant)

Embeds (from `dreimac/ProjectiveCoordinates.py`, lines 28-49):
```
X = class_map.T
variance = np.zeros(X.shape[0]-1)
n_dim = class_map.shape[1]
XRet = None
for i in range(n_dim-1):
    _, U = linalg.eigh(X.dot(X.T))
    U = np.fliplr(U)
    variance[-i-1] = np.mean((np.pi/2-np.real(np.arccos(np.abs(U[:, -1][None, :].dot(X)))))**2)
    Y = (U.T).dot(X)
    y = np.array(Y[-1, :])
    Y = Y[0:-1, :]
    X = Y/np.sqrt(1-np.abs(y)**2)[None, :]
    if i == n_dim-proj_dim-2:
        XRet = np.array(X)
return {'variance':variance, 'X':XRet.T}
```
The working matrix `X` is stored by its columns (the data points), i.e. as
the row list of `X.T`; `class_map` is a list of rows (points), so it is
directly the initial column list.  `linalg.eigh` is an external oracle,
passed as the function `eigh`; the variance vector is accumulated in the
`variance[-i-1]` fill order (most recent entry first). -/

/-- Sum of squares of a vector (squared Euclidean norm). -/
def sumSq (l : List ℝ) : ℝ := (l.map (fun t => t ^ 2)).sum

/-- Column `i` of a row-major matrix. -/
def colD (U : List (List ℝ)) (i : ℕ) : List ℝ := U.map (fun r => r.getD i 0)

/-- Dot product of two vectors. -/
def dotR (a b : List ℝ) : ℝ := (List.zipWith (fun s t => s * t) a b).sum

/-- The product `U.T.dot(x)` for a square matrix `U`: entry `i` is (column `i` of `U`)·`x`. -/
def applyUT (U : List (List ℝ)) (x : List ℝ) : List ℝ :=
  (List.range U.length).map (fun i => dotR (colD U i) x)

/-- The Gram matrix `X.dot(X.T)` of the working matrix whose columns are
`cols` (its size is the common length of the columns). -/
def gram (cols : List (List ℝ)) : List (List ℝ) :=
  (List.range (cols.headD []).length).map (fun a =>
    (List.range (cols.headD []).length).map (fun b =>
      (cols.map (fun x => x.getD a 0 * x.getD b 0)).sum))

/-- Model of `np.fliplr(U)`: reverse the column order, i.e. reverse each row. -/
def fliplr (U : List (List ℝ)) : List (List ℝ) := U.map List.reverse

/-- The matrix `U = np.fliplr(linalg.eigh(X.dot(X.T))[1])` of one PPCA step. -/
def ppcaU (eigh : List (List ℝ) → List (List ℝ)) (cols : List (List ℝ)) :
    List (List ℝ) := fliplr (eigh (gram cols))

/-- The dropped coordinate `y` of one data column at one PPCA step: the
last entry of `(U.T).dot(x)`. -/
def ppcaY (eigh : List (List ℝ) → List (List ℝ)) (cols : List (List ℝ)) (x : List ℝ) : ℝ :=
  (applyUT (ppcaU eigh cols) x).getD ((ppcaU eigh cols).length - 1) 0

/-- One data column after one PPCA step: rotate by `U.T`, drop the last
coordinate, rescale by `1/sqrt(1-|y|^2)` (as the code: no clamp). -/
noncomputable def ppcaCol (eigh : List (List ℝ) → List (List ℝ)) (cols : List (List ℝ))
    (x : List ℝ) : List ℝ :=
  ((applyUT (ppcaU eigh cols) x).dropLast).map
    (fun t => t / Real.sqrt (1 - |ppcaY eigh cols x| ^ 2))

/-- The variance entry recorded at one step:
`np.mean((pi/2 - arccos(|U[:, -1].dot(X)|))**2)`. -/
noncomputable def ppcaVar (eigh : List (List ℝ) → List (List ℝ)) (cols : List (List ℝ)) : ℝ :=
  ((cols.map (fun x =>
    (Real.pi / 2
      - Real.arccos |dotR (colD (ppcaU eigh cols) ((ppcaU eigh cols).length - 1)) x|) ^ 2)).sum)
    / cols.length

/-- The PPCA main-loop state after `k` iterations: the current columns,
the variance entries recorded so far (most recent first, matching the
`variance[-i-1]` fill order), and the `XRet` snapshot (`none` = `None`). -/
noncomputable def ppcaIter (eigh : List (List ℝ) → List (List ℝ)) (projDim nDim : ℕ)
    (cm : List (List ℝ)) : ℕ → List (List ℝ) × List ℝ × Option (List (List ℝ))
  | 0 => (cm, [], none)
  | k + 1 =>
    let st := ppcaIter eigh projDim nDim cm k
    let cols := st.1.map (ppcaCol eigh st.1)
    (cols, ppcaVar eigh st.1 :: st.2.1,
      if (k : ℤ) = (nDim : ℤ) - projDim - 2 then some cols else st.2.2)

/-- The reducer `PPCA(class_map, proj_dim)`: rows of `class_map` are the data points,
i.e. the columns of `X = class_map.T`.  Returns the pair
(`XRet.T` as a row list of points, variance entries); `none` models the
`AttributeError` crash of `XRet.T` when `XRet` is still `None` after the
loop. -/
noncomputable def PPCA (eigh : List (List ℝ) → List (List ℝ)) (classMap : List (List ℝ))
    (projDim : ℕ) : Option (List (List ℝ) × List ℝ) :=
  let nDim := (classMap.headD []).length
  let res := ppcaIter eigh projDim nDim classMap (nDim - 1)
  match res.2.2 with
  | none => none
  | some r => some (r, res.2.1)

/-- The n×n identity matrix. -/
def idMat (n : ℕ) : List (List ℝ) :=
  (List.range n).map (fun i => (List.range n).map (fun j => if i = j then 1 else 0))

/-- A concrete eigendecomposition oracle for this file's concrete inputs:
it returns the identity eigenbasis, which is orthogonal. -/
def eighId (A : List (List ℝ)) : List (List ℝ) := idMat A.length

/-- Claim C2, counterexample.  `class_map = [[1, 0]]` is a 1×2 unit-row
matrix and `proj_dim = 1 < 2 = L`; the main loop runs `n_dim - 1 = 1`
iteration (`i = 0`) but the snapshot condition `i == n_dim-proj_dim-2`
(`0 == -1`) never fires, so `XRet` stays `None` and `XRet.T` crashes:
no N×(proj_dim+1) matrix is returned.  So claim C2's contract fails at
`proj_dim = L - 1`. -/
theorem claim_C2_counterexample : PPCA eighId [[1, 0]] 1 = none := rfl

/-! ### The PPCA renormalization denominator (claim C8)

Embeds the denominator of `X = Y/np.sqrt(1-np.abs(y)**2)[None, :]`
(line 43 of `dreimac/ProjectiveCoordinates.py`, line 149 of
`ProjectiveCoordinates.py`): `np.sqrt` of a negative argument is NaN. -/

/-- Model of `np.sqrt` with its NaN output on negative arguments tracked. -/
noncomputable def npSqrt (x : ℝ) : Option ℝ := if x < 0 then none else some (Real.sqrt x)

/-- The renormalization denominator exactly as the code computes it:
`np.sqrt(1 - np.abs(y)**2)` with NO clamp on the radicand. -/
noncomputable def ppcaRenormDenom (y : ℝ) : Option ℝ := npSqrt (1 - |y| ^ 2)

/-- The denominator as claim C8 (spec 4.5) words it: the radicand
`1 - y^2` clamped to zero before the square root. -/
noncomputable def ppcaRenormDenomClamped (y : ℝ) : Option ℝ := npSqrt (max 0 (1 - |y| ^ 2))

/-- Claim C8: the code does NOT clamp.  At a dropped coordinate
`y = 3/2` (|y| numerically ≥ 1, the situation the claim is about) the code
takes `np.sqrt(-5/4)`, producing NaN (`none`), while the clamped
computation required by the claim would produce `sqrt(0) = 0`. -/
theorem claim_C8_theorem :
    ppcaRenormDenom (3 / 2) = none ∧ ppcaRenormDenomClamped (3 / 2) = some 0 := by
  have habs : |(3 / 2 : ℝ)| ^ 2 = 9 / 4 := by
    rw [abs_of_pos (by norm_num : (0 : ℝ) < 3 / 2)]
    norm_num
  constructor
  · simp only [ppcaRenormDenom, npSqrt, habs]
    norm_num
  · have hmax : max 0 (1 - |(3 / 2 : ℝ)| ^ 2) = 0 := by
      rw [habs]
      norm_num
    simp only [ppcaRenormDenomClamped, hmax, npSqrt]
    simp [Real.sqrt_zero]

/-! ### Algebraic facts about the PPCA step -/

theorem sum_map_range {M : Type} [AddCommMonoid M] (n : ℕ) (f : ℕ → M) :
    ((List.range n).map f).sum = ∑ i in Finset.range n, f i := by
  induction n with
  | zero => simp
  | succ n ih =>
    rw [List.range_succ, List.map_append, List.sum_append, Finset.sum_range_succ, ih]
    simp

theorem getD_range_map (n i : ℕ) (f : ℕ → ℝ) (hi : i < n) :
    ((List.range n).map f).getD i 0 = f i := by
  have h1 : i < ((List.range n).map f).length := by simpa using hi
  rw [List.getD_eq_getElem _ _ h1, List.getElem_map, List.getElem_range]

theorem dotR_eq_range (a b : List ℝ) (n : ℕ) (ha : a.length = n) (hb : b.length = n) :
    dotR a b = ∑ i in Finset.range n, a.getD i 0 * b.getD i 0 := by
  induction n generalizing a b with
  | zero =>
    have ha' : a = [] := List.length_eq_zero.mp ha
    subst ha'
    simp [dotR]
  | succ n ih =>
    cases a with
    | nil => simp at ha
    | cons u t =>
      cases b with
      | nil => simp at hb
      | cons v s =>
        have ht : t.length = n := by simpa using ha
        have hs : s.length = n := by simpa using hb
        unfold dotR
        rw [List.zipWith_cons_cons, List.sum_cons]
        have hih := ih t s ht hs
        unfold dotR at hih
        rw [hih, Finset.sum_range_succ']
        simp [add_comm]

theorem sumSq_eq_range (l : List ℝ) :
    sumSq l = ∑ i in Finset.range l.length, (l.getD i 0) ^ 2 :=
  sum_map_eq_range l (fun t => t ^ 2) 0

theorem sumSq_append (a b : List ℝ) : sumSq (a ++ b) = sumSq a + sumSq b := by
  unfold sumSq
  rw [List.map_append, List.sum_append]

theorem sumSq_dropLast (z : List ℝ) (hz : z ≠ []) :
    sumSq z = sumSq z.dropLast + (z.getD (z.length - 1) 0) ^ 2 := by
  have hlen : z.length - 1 < z.length := by
    cases z with
    | nil => exact absurd rfl hz
    | cons a t => simp
  have hgl : z.getLast hz = z.getD (z.length - 1) 0 := by
    rw [List.getLast_eq_getElem, List.getD_eq_getElem z 0 hlen]
  calc sumSq z = sumSq (z.dropLast ++ [z.getLast hz]) := by
        rw [List.dropLast_append_getLast hz]
    _ = sumSq z.dropLast + sumSq [z.getLast hz] := sumSq_append _ _
    _ = sumSq z.dropLast + (z.getD (z.length - 1) 0) ^ 2 := by
        rw [hgl]
        simp [sumSq]

theorem sumSq_map_div (l : List ℝ) (c : ℝ) :
    sumSq (l.map (fun t => t / c)) = sumSq l / c ^ 2 := by
  induction l with
  | nil => simp [sumSq]
  | cons x t ih =>
    simp only [sumSq, List.map_cons, List.sum_cons] at ih ⊢
    rw [ih]
    ring

/-- Rows of `U` are orthonormal, i.e. `U.dot(U.T)` is the identity. -/
def OrthoRows (U : List (List ℝ)) : Prop :=
  ∀ j k, j < U.length → k < U.length →
    dotR (U.getD j []) (U.getD k []) = if j = k then 1 else 0

/-- What `linalg.eigh` guarantees about its eigenvector output on each
input: a square orthogonal matrix of the input's size. -/
def EighProper (eigh : List (List ℝ) → List (List ℝ)) : Prop :=
  ∀ A, (eigh A).length = A.length ∧ (∀ r ∈ eigh A, r.length = A.length) ∧ OrthoRows (eigh A)

theorem dotR_reverse (a b : List ℝ) (h : a.length = b.length) :
    dotR a.reverse b.reverse = dotR a b := by
  unfold dotR
  rw [← List.reverse_zipWith h, List.sum_reverse]

theorem fliplr_length (U : List (List ℝ)) : (fliplr U).length = U.length := by
  simp [fliplr]

theorem fliplr_getD (U : List (List ℝ)) (j : ℕ) (hj : j < U.length) :
    (fliplr U).getD j [] = (U.getD j []).reverse := by
  have h1 : j < (fliplr U).length := by
    rw [fliplr_length]
    exact hj
  rw [List.getD_eq_getElem _ _ h1, List.getD_eq_getElem U [] hj]
  simp [fliplr]

theorem fliplr_rows_length (U : List (List ℝ)) (d : ℕ) (h : ∀ r ∈ U, r.length = d) :
    ∀ r ∈ fliplr U, r.length = d := by
  intro r hr
  unfold fliplr at hr
  rw [List.mem_map] at hr
  obtain ⟨r', hr', rfl⟩ := hr
  rw [List.length_reverse]
  exact h r' hr'

theorem orthoRows_fliplr (U : List (List ℝ)) (hsq : ∀ r ∈ U, r.length = U.length)
    (h : OrthoRows U) : OrthoRows (fliplr U) := by
  intro j k hj hk
  rw [fliplr_length] at hj hk
  rw [fliplr_getD U j hj, fliplr_getD U k hk]
  have hjlen : (U.getD j []).length = U.length := by
    rw [List.getD_eq_getElem U [] hj]
    exact hsq _ (List.getElem_mem hj)
  have hklen : (U.getD k []).length = U.length := by
    rw [List.getD_eq_getElem U [] hk]
    exact hsq _ (List.getElem_mem hk)
  rw [dotR_reverse _ _ (by rw [hjlen, hklen])]
  exact h j k hj hk

theorem colD_length (U : List (List ℝ)) (i : ℕ) : (colD U i).length = U.length := by
  simp [colD]

theorem colD_getD (U : List (List ℝ)) (i j : ℕ) (hj : j < U.length) :
    (colD U i).getD j 0 = (U.getD j []).getD i 0 := by
  have h1 : j < (colD U i).length := by
    rw [colD_length]
    exact hj
  rw [List.getD_eq_getElem _ _ h1, List.getD_eq_getElem U [] hj]
  simp [colD]

/-- Rotation by the transpose of a row-orthonormal square matrix preserves
the squared norm. -/
theorem sumSq_applyUT (U : List (List ℝ)) (x : List ℝ)
    (hUr : ∀ r ∈ U, r.length = U.length) (hx : x.length = U.length)
    (horth : OrthoRows U) : sumSq (applyUT U x) = sumSq x := by
  set d := U.length with hd
  have hrowlen : ∀ j, j < d → (U.getD j []).length = d := by
    intro j hj
    rw [List.getD_eq_getElem U [] hj]
    exact hUr _ (List.getElem_mem hj)
  have h1 : sumSq (applyUT U x) = ∑ i in Finset.range d, (dotR (colD U i) x) ^ 2 := by
    unfold applyUT sumSq
    rw [List.map_map, sum_map_range]
    rfl
  have h2 : ∀ i, dotR (colD U i) x
      = ∑ j in Finset.range d, (U.getD j []).getD i 0 * x.getD j 0 := by
    intro i
    rw [dotR_eq_range (colD U i) x d (by rw [colD_length]) hx]
    exact Finset.sum_congr rfl (fun j hj =>
      congrArg (· * x.getD j 0) (colD_getD U i j (Finset.mem_range.mp hj)))
  have h3 : ∀ j k, j < d → k < d →
      (∑ i in Finset.range d, (U.getD j []).getD i 0 * (U.getD k []).getD i 0)
        = if j = k then 1 else 0 := by
    intro j k hj hk
    rw [← dotR_eq_range (U.getD j []) (U.getD k []) d (hrowlen j hj) (hrowlen k hk)]
    exact horth j k hj hk
  rw [h1]
  calc ∑ i in Finset.range d, (dotR (colD U i) x) ^ 2
      = ∑ i in Finset.range d, ∑ j in Finset.range d, ∑ k in Finset.range d,
          (x.getD j 0 * x.getD k 0) * ((U.getD j []).getD i 0 * (U.getD k []).getD i 0) := by
        refine Finset.sum_congr rfl (fun i _ => ?_)
        rw [h2 i, pow_two, Finset.sum_mul_sum]
        refine Finset.sum_congr rfl (fun j _ => Finset.sum_congr rfl (fun k _ => by ring))
    _ = ∑ j in Finset.range d, ∑ k in Finset.range d,
          (x.getD j 0 * x.getD k 0) * (∑ i in Finset.range d,
            (U.getD j []).getD i 0 * (U.getD k []).getD i 0) := by
        rw [Finset.sum_comm]
        refine Finset.sum_congr rfl (fun j _ => ?_)
        rw [Finset.sum_comm]
        refine Finset.sum_congr rfl (fun k _ => ?_)
        rw [← Finset.mul_sum]
    _ = ∑ j in Finset.range d, ∑ k in Finset.range d,
          (if j = k then x.getD j 0 * x.getD k 0 else 0) := by
        refine Finset.sum_congr rfl (fun j hj => Finset.sum_congr rfl (fun k hk => ?_))
        rw [h3 j k (Finset.mem_range.mp hj) (Finset.mem_range.mp hk)]
        split <;> ring
    _ = ∑ j in Finset.range d, (x.getD j 0) ^ 2 := by
        refine Finset.sum_congr rfl (fun j hj => ?_)
        rw [Finset.sum_ite_eq (Finset.range d) j (fun k => x.getD j 0 * x.getD k 0),
          if_pos hj, pow_two]
    _ = sumSq x := by
        rw [sumSq_eq_range, hx]

theorem applyUT_length (U : List (List ℝ)) (x : List ℝ) :
    (applyUT U x).length = U.length := by
  simp [applyUT]

theorem gram_length (cols : List (List ℝ)) : (gram cols).length = (cols.headD []).length := by
  simp [gram]

/-- One PPCA step sends a unit column of dimension `d` to a unit column of
dimension `d - 1`, provided the oracle output is orthogonal and the
dropped coordinate has magnitude below 1. -/
theorem ppcaCol_unit (eigh : List (List ℝ) → List (List ℝ)) (hE : EighProper eigh)
    (cols : List (List ℝ)) (x : List ℝ) (d : ℕ)
    (hhead : (cols.headD []).length = d) (hd : 1 ≤ d)
    (hx : x.length = d) (hxs : sumSq x = 1)
    (hy : |ppcaY eigh cols x| < 1) :
    (ppcaCol eigh cols x).length = d - 1 ∧ sumSq (ppcaCol eigh cols x) = 1 := by
  obtain ⟨hElen, hErows, hEorth⟩ := hE (gram cols)
  have hglen : (gram cols).length = d := by
    rw [gram_length, hhead]
  have hU0len : (eigh (gram cols)).length = d := by
    rw [hElen, hglen]
  have hU0rows : ∀ r ∈ eigh (gram cols), r.length = (eigh (gram cols)).length := by
    intro r hr
    rw [hU0len, ← hglen]
    exact hErows r hr
  have hUlen : (ppcaU eigh cols).length = d := by
    rw [ppcaU, fliplr_length, hU0len]
  have hUrows : ∀ r ∈ ppcaU eigh cols, r.length = (ppcaU eigh cols).length := by
    rw [hUlen, ppcaU]
    exact fliplr_rows_length _ d (by
      intro r hr
      rw [← hU0len]
      exact hU0rows r hr)
  have hUorth : OrthoRows (ppcaU eigh cols) :=
    orthoRows_fliplr _ hU0rows hEorth
  have hzlen : (applyUT (ppcaU eigh cols) x).length = d := by
    rw [applyUT_length, hUlen]
  have hzne : applyUT (ppcaU eigh cols) x ≠ [] := by
    intro h
    rw [h] at hzlen
    simp at hzlen
    omega
  have hzs : sumSq (applyUT (ppcaU eigh cols) x) = 1 := by
    rw [sumSq_applyUT (ppcaU eigh cols) x hUrows (by rw [hUlen]; exact hx) hUorth]
    exact hxs
  set z := applyUT (ppcaU eigh cols) x with hzdef
  have hyval : ppcaY eigh cols x = z.getD (d - 1) 0 := by
    rw [ppcaY, hUlen]
  have hdrops : sumSq z.dropLast = 1 - (ppcaY eigh cols x) ^ 2 := by
    have := sumSq_dropLast z hzne
    rw [hzs, hzlen] at this
    rw [hyval]
    linarith
  have hypos : 0 < 1 - (ppcaY eigh cols x) ^ 2 := by
    have := (sq_lt_one_iff_abs_lt_one (ppcaY eigh cols x)).mpr hy
    linarith
  have hsqrt : Real.sqrt (1 - |ppcaY eigh cols x| ^ 2) ^ 2
      = 1 - (ppcaY eigh cols x) ^ 2 := by
    rw [sq_abs]
    exact Real.sq_sqrt (le_of_lt hypos)
  constructor
  · rw [ppcaCol, List.length_map, List.length_dropLast, hzlen]
  · rw [ppcaCol, sumSq_map_div, hsqrt, ← hzdef, hdrops]
    exact div_self (ne_of_gt hypos)

theorem ppcaIter_vars_length (eigh : List (List ℝ) → List (List ℝ))
    (projDim nDim : ℕ) (cm : List (List ℝ)) :
    ∀ k, (ppcaIter eigh projDim nDim cm k).2.1.length = k := by
  intro k
  induction k with
  | zero => rfl
  | succ k ih =>
    show (ppcaVar eigh (ppcaIter eigh projDim nDim cm k).1
        :: (ppcaIter eigh projDim nDim cm k).2.1).length = k + 1
    rw [List.length_cons, ih]

/-- Invariant of the PPCA loop up to the snapshot step: the number of
columns is preserved and every column is a unit vector of dimension
`nDim - k`. -/
theorem ppcaIter_unit_cols (eigh : List (List ℝ) → List (List ℝ)) (hE : EighProper eigh)
    (cm : List (List ℝ)) (projDim nDim : ℕ) (hpd : projDim + 2 ≤ nDim)
    (hrows : ∀ r ∈ cm, r.length = nDim ∧ sumSq r = 1)
    (hnd : ∀ j, j < nDim - projDim - 1 → ∀ x ∈ (ppcaIter eigh projDim nDim cm j).1,
      |ppcaY eigh (ppcaIter eigh projDim nDim cm j).1 x| < 1) :
    ∀ k, k ≤ nDim - projDim - 1 →
      (ppcaIter eigh projDim nDim cm k).1.length = cm.length ∧
      ∀ x ∈ (ppcaIter eigh projDim nDim cm k).1, x.length = nDim - k ∧ sumSq x = 1 := by
  intro k
  induction k with
  | zero =>
    intro _
    exact ⟨rfl, by simpa using hrows⟩
  | succ k ih =>
    intro hk
    obtain ⟨hlen, hcols⟩ := ih (by omega)
    set st := ppcaIter eigh projDim nDim cm k with hst
    have hc1 : (ppcaIter eigh projDim nDim cm (k + 1)).1 = st.1.map (ppcaCol eigh st.1) := rfl
    refine ⟨by rw [hc1, List.length_map]; exact hlen, ?_⟩
    cases hst1 : st.1 with
    | nil =>
      intro x hx
      rw [hc1, hst1] at hx
      simp at hx
    | cons c t =>
      have hhead : (st.1.headD []).length = nDim - k := by
        rw [hst1]
        exact (hcols c (by rw [hst1]; exact List.mem_cons_self c t)).1
      intro x hx
      rw [hc1, List.mem_map] at hx
      obtain ⟨x0, hx0, rfl⟩ := hx
      have hx0l := (hcols x0 hx0).1
      have hx0s := (hcols x0 hx0).2
      have hy := hnd k (by omega) x0 hx0
      have hstep := ppcaCol_unit eigh hE st.1 x0 (nDim - k) hhead (by omega) hx0l hx0s hy
      exact ⟨by rw [hstep.1]; omega, hstep.2⟩

/-- The snapshot `XRet` after the loop: set exactly at iteration
`i = nDim - projDim - 2` to the columns after that iteration, i.e. the
state after `nDim - projDim - 1` reduction steps, and never overwritten. -/
theorem ppcaIter_snapshot (eigh : List (List ℝ) → List (List ℝ)) (projDim nDim : ℕ)
    (cm : List (List ℝ)) (hpd : projDim + 2 ≤ nDim) :
    ∀ k, nDim - projDim - 1 ≤ k →
      (ppcaIter eigh projDim nDim cm k).2.2
        = some ((ppcaIter eigh projDim nDim cm (nDim - projDim - 1)).1) := by
  intro k
  induction k with
  | zero =>
    intro h
    omega
  | succ k ih =>
    intro hk
    have hunf : (ppcaIter eigh projDim nDim cm (k + 1)).2.2
        = if (k : ℤ) = (nDim : ℤ) - projDim - 2
          then some ((ppcaIter eigh projDim nDim cm (k + 1)).1)
          else (ppcaIter eigh projDim nDim cm k).2.2 := rfl
    by_cases hcase : nDim - projDim - 1 = k + 1
    · have hkeq : (k : ℤ) = (nDim : ℤ) - projDim - 2 := by omega
      rw [hunf, if_pos hkeq, hcase]
    · have hk' : nDim - projDim - 1 ≤ k := by omega
      have hkne : ¬ ((k : ℤ) = (nDim : ℤ) - projDim - 2) := by omega
      rw [hunf, if_neg hkne]
      exact ih hk'

/-- Claim C2 (amended): for a nonempty N×L `class_map` with unit rows and
`proj_dim + 2 ≤ L` (the claim's `proj_dim < L` fails at `proj_dim = L-1`,
where `XRet` stays `None` and the code crashes — see the counterexample),
and an `eigh` oracle returning square orthogonal matrices, with every
dropped coordinate of magnitude < 1 up to the snapshot step, `PPCA`
returns the matrix of N unit rows of length `proj_dim + 1` that is the
column snapshot taken exactly when the ambient dimension reaches
`proj_dim + 1` (after `L - proj_dim - 1` reduction steps), together with
a variance vector of length `L - 1`. -/
theorem claim_C2_theorem (eigh : List (List ℝ) → List (List ℝ)) (cm : List (List ℝ))
    (L projDim : ℕ) (hE : EighProper eigh) (hcm : cm ≠ [])
    (hrows : ∀ r ∈ cm, r.length = L ∧ sumSq r = 1) (hpd : projDim + 2 ≤ L)
    (hnd : ∀ j, j < L - projDim - 1 → ∀ x ∈ (ppcaIter eigh projDim L cm j).1,
      |ppcaY eigh (ppcaIter eigh projDim L cm j).1 x| < 1) :
    ∃ R vars, PPCA eigh cm projDim = some (R, vars) ∧
      R = (ppcaIter eigh projDim L cm (L - projDim - 1)).1 ∧
      R.length = cm.length ∧
      (∀ r ∈ R, r.length = projDim + 1 ∧ sumSq r = 1) ∧
      vars.length = L - 1 := by
  have hhead : (cm.headD []).length = L := by
    match cm, hcm with
    | r :: t, _ => exact (hrows r (List.mem_cons_self r t)).1
  have hsnap := ppcaIter_snapshot eigh projDim L cm hpd (L - 1) (by omega)
  have hPPCA : PPCA eigh cm projDim
      = some ((ppcaIter eigh projDim L cm (L - projDim - 1)).1,
              (ppcaIter eigh projDim L cm (L - 1)).2.1) := by
    unfold PPCA
    rw [hhead]
    show (match (ppcaIter eigh projDim L cm (L - 1)).2.2 with
      | none => none
      | some r => some (r, (ppcaIter eigh projDim L cm (L - 1)).2.1)) = _
    rw [hsnap]
  obtain ⟨hlen, hcols⟩ :=
    ppcaIter_unit_cols eigh hE cm projDim L hpd hrows hnd (L - projDim - 1) (le_refl _)
  refine ⟨(ppcaIter eigh projDim L cm (L - projDim - 1)).1,
    (ppcaIter eigh projDim L cm (L - 1)).2.1, hPPCA, rfl, hlen, ?_, ?_⟩
  · intro r hr
    obtain ⟨hl, hs⟩ := hcols r hr
    refine ⟨?_, hs⟩
    rw [hl]
    omega
  · exact ppcaIter_vars_length eigh projDim L cm (L - 1)

theorem idMat_length (n : ℕ) : (idMat n).length = n := by
  simp [idMat]

theorem idMat_rows_length (n : ℕ) : ∀ r ∈ idMat n, r.length = n := by
  intro r hr
  unfold idMat at hr
  rw [List.mem_map] at hr
  obtain ⟨i, -, rfl⟩ := hr
  simp

theorem idMat_getD (n j : ℕ) (hj : j < n) :
    (idMat n).getD j [] = (List.range n).map (fun i => if j = i then (1 : ℝ) else 0) := by
  have h1 : j < (idMat n).length := by
    rw [idMat_length]
    exact hj
  rw [List.getD_eq_getElem _ _ h1]
  unfold idMat
  rw [List.getElem_map, List.getElem_range]

theorem orthoRows_idMat (n : ℕ) : OrthoRows (idMat n) := by
  intro j k hj hk
  rw [idMat_length] at hj hk
  rw [idMat_getD n j hj, idMat_getD n k hk,
    dotR_eq_range _ _ n (by simp) (by simp)]
  have hterm : ∀ i ∈ Finset.range n,
      ((List.range n).map (fun i => if j = i then (1 : ℝ) else 0)).getD i 0
        * ((List.range n).map (fun i => if k = i then (1 : ℝ) else 0)).getD i 0
      = if j = i then (if k = i then (1 : ℝ) else 0) else 0 := by
    intro i hi
    rw [getD_range_map n i _ (Finset.mem_range.mp hi),
      getD_range_map n i _ (Finset.mem_range.mp hi)]
    split
    · rw [one_mul]
    · rw [zero_mul]
  rw [Finset.sum_congr rfl hterm]
  by_cases hjk : j = k
  · subst hjk
    rw [if_pos rfl]
    have hsame : ∀ i ∈ Finset.range n,
        (if j = i then (if j = i then (1 : ℝ) else 0) else 0) = if j = i then 1 else 0 := by
      intro i _
      by_cases h : j = i <;> simp [h]
    rw [Finset.sum_congr rfl hsame,
      Finset.sum_ite_eq (Finset.range n) j (fun _ => (1 : ℝ)),
      if_pos (Finset.mem_range.mpr hj)]
  · rw [if_neg hjk]
    apply Finset.sum_eq_zero
    intro i _
    by_cases h : j = i
    · subst h
      rw [if_pos rfl, if_neg (Ne.symm hjk)]
    · rw [if_neg h]

theorem eighId_proper : EighProper eighId := by
  intro A
  exact ⟨idMat_length A.length, idMat_rows_length A.length, orthoRows_idMat A.length⟩

/-- Witness for `claim_C2_theorem`: one unit point `(3/5, 4/5)` in the
plane, reduced to dimension 1 with the identity oracle. -/
theorem claim_C2_witness :
    ∃ R vars, PPCA eighId [[(3 : ℝ)/5, 4/5]] 0 = some (R, vars) ∧
      R = (ppcaIter eighId 0 2 [[(3 : ℝ)/5, 4/5]] (2 - 0 - 1)).1 ∧
      R.length = 1 ∧
      (∀ r ∈ R, r.length = 0 + 1 ∧ sumSq r = 1) ∧
      vars.length = 2 - 1 := by
  refine claim_C2_theorem eighId [[(3 : ℝ)/5, 4/5]] 2 0 eighId_proper (by simp) ?_ (by omega) ?_
  · intro r hr
    have hr' : r = [(3 : ℝ)/5, 4/5] := by simpa using hr
    subst hr'
    refine ⟨rfl, ?_⟩
    norm_num [sumSq]
  · intro j hj x hx
    have hj0 : j = 0 := by omega
    subst hj0
    have h0 : (ppcaIter eighId 0 2 [[(3 : ℝ)/5, 4/5]] 0).1 = [[(3 : ℝ)/5, 4/5]] := rfl
    rw [h0] at hx
    have hx' : x = [(3 : ℝ)/5, 4/5] := by simpa using hx
    subst hx'
    rw [h0]
    have hglen : (gram [[(3 : ℝ)/5, 4/5]]).length = 2 := by
      simp [gram]
    have hU : ppcaU eighId [[(3 : ℝ)/5, 4/5]] = [[0, 1], [1, 0]] := by
      rw [ppcaU, show eighId (gram [[(3 : ℝ)/5, 4/5]]) = idMat 2 by rw [eighId, hglen]]
      norm_num [idMat, fliplr, List.range_succ]
    have hz : applyUT [[(0 : ℝ), 1], [1, 0]] [(3 : ℝ)/5, 4/5] = [4/5, 3/5] := by
      norm_num [applyUT, colD, dotR, List.range_succ]
    have hy : ppcaY eighId [[(3 : ℝ)/5, 4/5]] [(3 : ℝ)/5, 4/5] = 3/5 := by
      rw [ppcaY, hU, hz]
      norm_num
    rw [hy]
    rw [abs_of_pos (by norm_num : (0 : ℝ) < 3/5)]
    norm_num

/-! ### The Euclidean sampler rows are distinct-point rows

The Euclidean variant runs the same loop over rows computed by `getCSM`:
`sqrt(max(0, |x|^2 + |y|^2 - 2 x.y))`.  For pairwise distinct points these
rows have zero diagonal and positive off-diagonal entries, so the generic
sampler guarantee applies to `getGreedyPermEuclidean` as well. -/

theorem dotR_self (x : List ℝ) : dotR x x = sumSq x := by
  induction x with
  | nil => rfl
  | cons a t ih =>
    simp only [dotR, sumSq, List.zipWith_cons_cons, List.map_cons, List.sum_cons] at ih ⊢
    rw [ih]
    ring

theorem sumSq_nonneg (l : List ℝ) : 0 ≤ sumSq l := by
  induction l with
  | nil => simp [sumSq]
  | cons a t ih =>
    simp only [sumSq, List.map_cons, List.sum_cons] at ih ⊢
    have := sq_nonneg a
    linarith

theorem sumSq_sub_eq (a b : List ℝ) (h : a.length = b.length) :
    sumSq (List.zipWith (fun s t => s - t) a b) = sumSq a + sumSq b - 2 * dotR a b := by
  induction a generalizing b with
  | nil =>
    have hb : b = [] := by simpa using h.symm
    subst hb
    simp [sumSq, dotR]
  | cons x t ih =>
    cases b with
    | nil => simp at h
    | cons y s =>
      have hts : t.length = s.length := by simpa using h
      have hih := ih s hts
      simp only [List.zipWith_cons_cons, sumSq, dotR, List.map_cons, List.sum_cons] at hih ⊢
      rw [hih]
      ring

theorem eq_of_sumSq_sub_eq_zero (a b : List ℝ) (h : a.length = b.length)
    (hz : sumSq (List.zipWith (fun s t => s - t) a b) = 0) : a = b := by
  induction a generalizing b with
  | nil => exact (by simpa using h.symm : b = []).symm
  | cons x t ih =>
    cases b with
    | nil => simp at h
    | cons y s =>
      have hts : t.length = s.length := by simpa using h
      simp only [List.zipWith_cons_cons, sumSq, List.map_cons, List.sum_cons] at hz
      have h1 : 0 ≤ (x - y) ^ 2 := sq_nonneg _
      have h2 : 0 ≤ sumSq (List.zipWith (fun s t => s - t) t s) := sumSq_nonneg _
      simp only [sumSq] at h2
      have hsq : (x - y) ^ 2 = 0 := by linarith
      have hx : x = y := by
        have hs0 := (pow_eq_zero_iff (n := 2) (by norm_num)).mp hsq
        have := sub_eq_zero.mp hs0
        exact this
      have hrest : sumSq (List.zipWith (fun s t => s - t) t s) = 0 := by
        simp only [sumSq]
        linarith
      rw [hx, ih s hts hrest]

/-- Hypotheses making `X` a cloud of `N` pairwise distinct points with `d`
coordinates each. -/
def IsDistinctPointCloud (X : List (List ℝ)) (N d : ℕ) : Prop :=
  X.length = N ∧ (∀ r ∈ X, r.length = d) ∧
  (∀ i j, i < N → j < N → i ≠ j → X.getD i [] ≠ X.getD j [])

theorem isDistinctRows_of_cloud (X : List (List ℝ)) (N d : ℕ)
    (hX : IsDistinctPointCloud X N d) :
    IsDistinctRows (fun i => getCSMRow X (X.getD i [])) N := by
  obtain ⟨hN, hrect, hdist⟩ := hX
  have hrowlen : ∀ x, (getCSMRow X x).length = N := by
    intro x
    simp [getCSMRow, hN]
  have hentry : ∀ x j, j < N → (getCSMRow X x).getD j 0
      = Real.sqrt (max 0 (sumSq x + sumSq (X.getD j []) - 2 * dotR x (X.getD j []))) := by
    intro x j hj
    have hj' : j < (getCSMRow X x).length := by
      rw [hrowlen]
      exact hj
    have hjX : j < X.length := by omega
    rw [List.getD_eq_getElem _ _ hj']
    unfold getCSMRow
    rw [List.getElem_map, List.getD_eq_getElem X [] hjX]
    rfl
  refine ⟨fun i _ => hrowlen _, ?_, ?_⟩
  · intro i hi
    show (getCSMRow X (X.getD i [])).getD i 0 = 0
    rw [hentry _ i hi, dotR_self,
      show sumSq (X.getD i []) + sumSq (X.getD i []) - 2 * sumSq (X.getD i []) = 0 by ring]
    simp
  · intro i j hi hj hij
    show 0 < (getCSMRow X (X.getD i [])).getD j 0
    rw [hentry _ j hj]
    have h1 : i < X.length := by omega
    have h2 : j < X.length := by omega
    have hlen : (X.getD i []).length = (X.getD j []).length := by
      rw [List.getD_eq_getElem X [] h1, List.getD_eq_getElem X [] h2,
        hrect _ (List.getElem_mem h1), hrect _ (List.getElem_mem h2)]
    have hne := hdist i j hi hj hij
    have hpos : 0 < sumSq (X.getD i []) + sumSq (X.getD j [])
        - 2 * dotR (X.getD i []) (X.getD j []) := by
      rw [← sumSq_sub_eq _ _ hlen]
      rcases lt_or_eq_of_le
        (sumSq_nonneg (List.zipWith (fun s t => s - t) (X.getD i []) (X.getD j []))) with
        hc | hc
      · exact hc
      · exact absurd (eq_of_sumSq_sub_eq_zero _ _ hlen hc.symm) hne
    rw [max_eq_right (le_of_lt hpos)]
    exact Real.sqrt_pos.mpr hpos

/-- Claim C4 (amended): for every N×N distance matrix of N PAIRWISE
DISTINCT points (zero diagonal, positive off-diagonal entries) and every
point cloud of pairwise distinct points — the distinctness hypothesis is
forced by the counterexample — and every landmark count `L` with
`1 ≤ L ≤ N`, BOTH furthest-point samplers (`getGreedyPermDM` and
`getGreedyPermEuclidean`, whose loops are identical) return `L` distinct
indices, and the insertion radii recorded at iterations 1 through L−1
(`lambdas` past the seed entry) are non-increasing.  The non-increasing
part needs no distinctness. -/
theorem claim_C4_theorem (D : List (List ℚ)) (N L : ℕ) (X : List (List ℝ)) (Nx dx Lx : ℕ)
    (hD : IsDistinctPointsDM D N) (h0 : 0 < N) (hL : 1 ≤ L) (hLN : L ≤ N)
    (hX : IsDistinctPointCloud X Nx dx) (h0x : 0 < Nx) (hLx : 1 ≤ Lx) (hLNx : Lx ≤ Nx) :
    ((getGreedyPermDM D L).1.length = L ∧ (getGreedyPermDM D L).1.Nodup ∧
      List.Chain' (fun a b => b ≤ a) ((getGreedyPermDM D L).2.drop 1)) ∧
    ((getGreedyPermEuclidean X Lx).1.length = Lx ∧ (getGreedyPermEuclidean X Lx).1.Nodup ∧
      List.Chain' (fun a b => b ≤ a) ((getGreedyPermEuclidean X Lx).2.drop 1)) := by
  have hL0 : L ≠ 0 := by omega
  have hLx0 : Lx ≠ 0 := by omega
  constructor
  · have h := greedyPerm_distinct_mono (fun p => D.getD p []) N L
      (isDistinctRows_of_DM D N hD) h0 hL hLN
    rw [getGreedyPermDM, if_neg hL0]
    exact h
  · have h := greedyPerm_distinct_mono (fun i => getCSMRow X (X.getD i [])) Nx Lx
      (isDistinctRows_of_cloud X Nx dx hX) h0x hLx hLNx
    rw [getGreedyPermEuclidean, if_neg hLx0]
    exact h

/-- Witness for `claim_C4_theorem`: two distinct points at distance 1,
both as a distance matrix and as a 1-d Euclidean point cloud. -/
theorem claim_C4_witness :
    (((getGreedyPermDM [[(0 : ℚ), 1], [1, 0]] 2).1.length = 2 ∧
      (getGreedyPermDM [[(0 : ℚ), 1], [1, 0]] 2).1.Nodup ∧
      List.Chain' (fun a b => b ≤ a)
        ((getGreedyPermDM [[(0 : ℚ), 1], [1, 0]] 2).2.drop 1)) ∧
     ((getGreedyPermEuclidean [[(0 : ℝ)], [1]] 2).1.length = 2 ∧
      (getGreedyPermEuclidean [[(0 : ℝ)], [1]] 2).1.Nodup ∧
      List.Chain' (fun a b => b ≤ a)
        ((getGreedyPermEuclidean [[(0 : ℝ)], [1]] 2).2.drop 1))) := by
  refine claim_C4_theorem [[(0 : ℚ), 1], [1, 0]] 2 2 [[(0 : ℝ)], [1]] 2 1 2
    ⟨rfl, ?_, ?_, ?_⟩ (by omega) (by omega) (by omega)
    ⟨rfl, ?_, ?_⟩ (by omega) (by omega) (by omega)
  · intro r hr
    rcases List.mem_cons.mp hr with h | h
    · rw [h]
      rfl
    · have h2 : r = [1, 0] := by simpa using h
      rw [h2]
      rfl
  · intro i hi
    interval_cases i <;> norm_num
  · intro i j hi hj hij
    interval_cases i <;> interval_cases j <;> first | omega | norm_num
  · intro r hr
    rcases List.mem_cons.mp hr with h | h
    · rw [h]
      rfl
    · have h2 : r = [1] := by simpa using h
      rw [h2]
      rfl
  · intro i j hi hj hij
    interval_cases i <;> interval_cases j <;> first | omega | norm_num

/-! ### The cover radius of the older variant (claim C3)

Embeds (from `ProjectiveCoordinates.py`, lines 212-218):
```
dgm1 = dgms[1]
idx_mp1 = np.argmax(dgm1[:, 1] - dgm1[:, 0])
coverage = np.max(np.min(dist_land_data, 1))
r_birth = (1-perc)*max(dgm1[idx_mp1, 0], coverage) + perc*dgm1[idx_mp1, 1]
```
Unlike the dreimac variant, this variant uses the diagram RAW — there is
no `dgm1/2.0` anywhere in the file — and its `ProjCoords` returns `None`,
so no diagram is placed in any result. -/

/-- The index `idx_mp1 = np.argmax(dgm1[:, 1] - dgm1[:, 0])` of the most
persistent class, as selected by the older variant. -/
def idxMp1 (dgm : List (ℚ × ℚ)) : ℕ := argmaxL (dgm.map (fun p => p.2 - p.1))

/-- The older variant's radius `r_birth`, computed from the RAW diagram. -/
def rBirthOld (dgm : List (ℚ × ℚ)) (dist : List (List ℚ)) (perc : ℚ) : ℚ :=
  (1 - perc) * max (dgm.getD (idxMp1 dgm) (0, 0)).1 (coverage dist)
    + perc * (dgm.getD (idxMp1 dgm) (0, 0)).2

/-- The same radius as claim C3 words it: every birth/death value halved
before it is compared with the coverage radius. -/
def rBirthOldClaimed (dgm : List (ℚ × ℚ)) (dist : List (List ℚ)) (perc : ℚ) : ℚ :=
  (1 - perc) * max ((dgm.getD (idxMp1 dgm) (0, 0)).1 / 2) (coverage dist)
    + perc * ((dgm.getD (idxMp1 dgm) (0, 0)).2 / 2)

/-- Claim C3, counterexample.  In the older variant the diagram feeds
`r_birth` raw: with one class `(birth, death) = (1, 2)`,
`dist_land_data = [[0]]` and `perc = 0` the code computes `max(1, 0) = 1`,
while halving every diagram value first, as the claim requires, would give
`max(1/2, 0) = 1/2`.  (This variant also returns `None`, so no diagram is
doubled back into any result either.)  So the claim, which covers every
birth/death value of the pipeline, is false of this cited variant. -/
theorem claim_C3_counterexample :
    rBirthOld [((1 : ℚ), 2)] [[0]] 0 ≠ rBirthOldClaimed [((1 : ℚ), 2)] [[0]] 0 := by
  have h1 : rBirthOld [((1 : ℚ), 2)] [[0]] 0 = 1 := by
    norm_num [rBirthOld, idxMp1, argmaxL, coverage, listMax, listMin, max_def]
  have h2 : rBirthOldClaimed [((1 : ℚ), 2)] [[0]] 0 = 1 / 2 := by
    norm_num [rBirthOldClaimed, idxMp1, argmaxL, coverage, listMax, listMin, max_def]
  rw [h1, h2]
  norm_num

end ProjectiveCoords
